import Mathlib

/-!
Verification of the FF1 format-preserving-encryption core (`src/ff1.rs`).

Bytes are natural numbers below 256; byte strings are `List Nat`.  The keyed
128-bit block cipher (the `BlockCipher` collaborator, e.g. AES) maps a 16-byte
block to a 16-byte block; a block is represented by its big-endian value, so a
cipher is a function `Nat → Nat` (on values below `2 ^ 128`).  Arbitrary
precision integers (`BigUint`/`BigInt`) are `Nat`/`Int`.
-/

namespace FPE

/-- Big-endian value of a byte string (`BigUint::from_bytes_be`). -/
def beNum (bs : List Nat) : Nat := bs.foldl (fun acc b => acc * 256 + b) 0

/-- The `k` low-order bytes of `x`, big-endian (fixed-width serialization,
also the truncating integer casts composed with `byteorder` writes). -/
def toBytesBE (k x : Nat) : List Nat :=
  (List.range k).map (fun i => x / 256 ^ (k - 1 - i) % 256)

/-- Fuel-driven floored logarithm: `logFuel base fuel n` is `⌊log_base n⌋`
whenever `fuel ≥ n` and `base ≥ 2`.  (Structural recursion so that the kernel
can evaluate it.) -/
def logFuel (base : Nat) : Nat → Nat → Nat
  | 0, _ => 0
  | fuel + 1, n => if n < base then 0 else logFuel base fuel (n / base) + 1

/-- Length of the minimal big-endian serialization of a `BigUint`
(num-bigint's `to_bytes_be`, which returns the single byte `0` for zero). -/
def byteLen (x : Nat) : Nat := if x = 0 then 1 else logFuel 256 x x + 1

/-- Minimal big-endian serialization of a `BigUint` (`to_bytes_be`);
`[0]` for zero. -/
def bytesBE (x : Nat) : List Nat := toBytesBE (byteLen x) x

/-- Ceiling base-2 logarithm `⌈log₂ n⌉` (0 for `n ≤ 1`), computed in integer
arithmetic via the floored logarithm of `n - 1`. -/
def clog2 (n : Nat) : Nat := if n ≤ 1 then 0 else logFuel 2 (n - 1) (n - 1) + 1

/-! ### Numeral strings

`FlexibleNumeralString` is a sequence of `u16` symbols, modelled as
`List Nat`.  `num_radix` and `str_radix` are its big-endian positional
conversions from `src/ff1.rs`. -/

/-- `FlexibleNumeralString::num_radix`: big-endian positional value,
`res = res * radix + symbol` over the symbols. -/
def num_radix (xs : List Nat) (radix : Nat) : Nat :=
  xs.foldl (fun res i => res * radix + i) 0

/-- `FlexibleNumeralString::str_radix`: `m`-symbol big-endian representation,
filled from the least significant symbol (rightmost index) by repeated
`(x mod radix, x / radix)`; the quotient feeds the remaining symbols. -/
def str_radix : Nat → Nat → Nat → List Nat
  | _, _, 0 => []
  | x, radix, m + 1 => str_radix (x / radix) radix m ++ [x % radix]

/-! ### Radix operations

The source trait `RadixOps` has two impls: the general radix carried as a
`u16`, and `PowerTwoRadix`. -/

/-- The `RadixOps` trait: symbol validation, the byte-length parameter `b`,
and the radix as big integer / `u32`. -/
structure RadixOps where
  check_in_range : Nat → Bool
  calculate_b : Nat → Nat
  to_biguint : Nat
  to_u32 : Nat

/-- The `RadixOps` impl for `u16` (the general radix).  `check_in_range` is
`n % radix == n`.  The source computes `calculate_b` as
`(v as f64 * (radix as f64).log2() / 8f64).ceil() as usize`; floating point
has no shallow embedding, so the rounds of that real expression are modelled
exactly: `⌈v·log₂ radix / 8⌉ = (⌈log₂ (radix ^ v)⌉ + 7) / 8` in integers. -/
def u16RadixOps (radix : Nat) : RadixOps where
  check_in_range := fun n => n % radix == n
  calculate_b := fun v => (clog2 (radix ^ v) + 7) / 8
  to_biguint := radix
  to_u32 := radix

/-- `PowerTwoRadix`: a radix `2^i` for `i ∈ [1, 16)`, no floating point. -/
structure PowerTwoRadix where
  radix : Nat
  log_radix : Nat
deriving DecidableEq

/-- The bit-scanning loop of `PowerTwoRadix::from`: `for i in 0..16`, test the
low bit of `tmp`, record its index in `log_radix`, fail (`none`) on a second
set bit, then shift `tmp` right.  Arguments: `tmp`, current loop index `i`,
remaining iterations, `log_radix`, `found`. -/
def ptLoop : Nat → Nat → Nat → Nat → Bool → Option (Nat × Bool)
  | _, _, 0, log_radix, found => some (log_radix, found)
  | tmp, i, c + 1, log_radix, found =>
    if tmp % 2 = 1 then
      if found then none else ptLoop (tmp / 2) (i + 1) c i true
    else ptLoop (tmp / 2) (i + 1) c log_radix found

/-- `PowerTwoRadix::from` (named `fromRadix` as `from` is a Lean keyword):
scan the 16 bits; `Err` if no bit or a second bit was found or the single bit
is bit 0. -/
def PowerTwoRadix.fromRadix (radix : Nat) : Option PowerTwoRadix :=
  match ptLoop radix 0 16 0 false with
  | none => none
  | some (log_radix, _) =>
    match log_radix with
    | 0 => none
    | _ => some ⟨radix, log_radix⟩

/-- The `RadixOps` impl for `PowerTwoRadix`: `check_in_range` is
`n >> log_radix == 0`, `calculate_b` is `((v * log_radix) + 7) / 8`. -/
def PowerTwoRadix.radixOps (pt : PowerTwoRadix) : RadixOps where
  check_in_range := fun n => n >>> pt.log_radix == 0
  calculate_b := fun v => (v * pt.log_radix + 7) / 8
  to_biguint := pt.radix
  to_u32 := pt.radix

/-- `FlexibleNumeralString::is_valid`: fold of `check_in_range` over the
symbols. -/
def is_valid (xs : List Nat) (radix : RadixOps) : Bool :=
  xs.foldl (fun acc n => acc && radix.check_in_range n) true

/-- The free function `pow`: exponentiation by repeated multiplication. -/
def pow (x e : Nat) : Nat := (List.range e).foldl (fun res _ => res * x) 1

/-- Rust `BigInt` remainder (truncated, sign of the dividend) followed by the
source's fix-up `if c.sign() == Sign::Minus { c += m; c %= m }`. -/
def rustMod (a M : Int) : Int :=
  let c := a.tmod M
  if c < 0 then (c + M).tmod M else c

/-! ### The FF1 engine -/

/-- `generate_s`: starting from the 16-byte PRF output `r`, repeatedly append
`AES(BE₁₆(j) XOR r)` for `j = 1, 2, …` while the buffer is shorter than `d`,
then truncate to `d` bytes.  Each appended block is 16 bytes, so the `while`
loop runs `⌈(d − 16)/16⌉` times (`16 - 16 = 0` in saturating `Nat`
subtraction covers `d ≤ 16`).  Byte-wise XOR with `r` is XOR of the
big-endian block values. -/
def generate_s (ciph : Nat → Nat) (r : Nat) (d : Nat) : List Nat :=
  ((List.range ((d - 16 + 15) / 16)).foldl
    (fun s j => s ++ toBytesBE 16 (ciph ((j + 1) ^^^ r))) (toBytesBE 16 r)).take d

/-- An FF1 instance: keyed block cipher, radix operations, and the radix as a
(memoized) big integer. -/
structure FF1 where
  ciph : Nat → Nat
  radix : RadixOps
  radix_bi : Nat

/-- `FF1::new`: store the cipher and the radix, memoizing `to_biguint`. -/
def FF1.new (ciph : Nat → Nat) (radix : RadixOps) : FF1 :=
  ⟨ciph, radix, radix.to_biguint⟩

/-- `FF1::prf`: CBC-MAC.  `y = 0^128`; for each 16-byte block of `x`,
`y ← ciph(y XOR block)` (byte-wise XOR is XOR of big-endian values). -/
def FF1.prf (ff : FF1) (x : List Nat) : Nat :=
  (List.range (x.length / 16)).foldl
    (fun y j => ff.ciph (y ^^^ beNum ((x.drop (16 * j)).take 16))) 0

/-- The number of zero bytes between the tweak and the round byte in `Q`:
`((-(t as i32) - (b as i32) - 1) % 16 + 16) % 16`, i.e. the non-negative
residue of `−t − b − 1` mod 16. -/
def qPad (t b : Nat) : Nat :=
  (((-(t : Int) - (b : Int) - 1).tmod 16 + 16) % 16).toNat

/-- Step 6i, round body: `Q = tweak ‖ [0]^pad ‖ [i] ‖ NUM(operand)` with the
operand's value `xnum` serialized big-endian and left-zero-padded to `b`
bytes.  When the minimal serialization is longer than `b` bytes the padding
count `b - q_bytes.len()` underflows `usize` and the source panics; `none`
models that panic. -/
def buildQ (tweak : List Nat) (b : Nat) (i : Nat) (xnum : Nat) : Option (List Nat) :=
  let q_base := tweak ++ List.replicate (qPad tweak.length b) 0
  let q_bytes := bytesBE xnum
  if b < q_bytes.length then none
  else some (q_base ++ [i % 256] ++ List.replicate (b - q_bytes.length) 0 ++ q_bytes)

/-- Step 5: `P = [1, 2, 1] ‖ BE₃(radix) ‖ [10] ‖ [u mod 256] ‖ BE₄(n) ‖
BE₄(t)`. -/
def buildP (radix_u32 u n t : Nat) : List Nat :=
  [1, 2, 1] ++ toBytesBE 3 radix_u32 ++ [10] ++ [u % 256] ++ toBytesBE 4 n ++ toBytesBE 4 t

/-- One encryption round (steps 6i–6ix): operand `B`; on success the state
`(A, B)` becomes `(B, STR((NUM(A) + y) mod radix^m, m))`. -/
def FF1.encStep (ff : FF1) (p : List Nat) (tweak : List Nat) (b d u v : Nat)
    (st : List Nat × List Nat) (i : Nat) : Option (List Nat × List Nat) :=
  match buildQ tweak b i (num_radix st.2 ff.radix_bi) with
  | none => none
  | some q =>
    let r := ff.prf (p ++ q)
    let s := generate_s ff.ciph r d
    let y := beNum s
    let m := if i % 2 = 0 then u else v
    let c := (num_radix st.1 ff.radix_bi + y) % pow ff.radix_bi m
    some (st.2, str_radix c ff.radix_bi m)

/-- One decryption round: operand `A`; the state `(A, B)` becomes
`(STR((NUM(B) − y) mod radix^m, m), A)`, the subtraction taken in `BigInt`
and reduced to a non-negative residue. -/
def FF1.decStep (ff : FF1) (p : List Nat) (tweak : List Nat) (b d u v : Nat)
    (st : List Nat × List Nat) (i : Nat) : Option (List Nat × List Nat) :=
  match buildQ tweak b i (num_radix st.1 ff.radix_bi) with
  | none => none
  | some q =>
    let r := ff.prf (p ++ q)
    let s := generate_s ff.ciph r d
    let y := beNum s
    let m := if i % 2 = 0 then u else v
    let c := (rustMod ((num_radix st.2 ff.radix_bi : Int) - (y : Int))
      ((pow ff.radix_bi m : Nat) : Int)).toNat
    some (str_radix c ff.radix_bi m, st.1)

/-- The round loop: run `step` over the round indices, short-circuiting on a
panic (`none`). -/
def foldSteps (step : List Nat × List Nat → Nat → Option (List Nat × List Nat))
    (st : List Nat × List Nat) : List Nat → Option (List Nat × List Nat)
  | [] => some st
  | i :: rest =>
    match step st i with
    | none => none
    | some st' => foldSteps step st' rest

/-- Outcome of `encrypt`/`decrypt`: `Err(())` for an invalid numeral string,
a panic (which returns nothing at all), or `Ok` with the output string. -/
inductive FF1Result where
  | badInput : FF1Result
  | panicked : FF1Result
  | ok : List Nat → FF1Result
deriving DecidableEq

/-- `FF1::encrypt` for `FlexibleNumeralString`. -/
def FF1.encrypt (ff : FF1) (tweak x : List Nat) : FF1Result :=
  if is_valid x ff.radix then
    let n := x.length
    let t := tweak.length
    let u := n / 2
    let v := n - u
    let x_a := x.take u
    let x_b := x.drop u
    let b := ff.radix.calculate_b v
    let d := 4 * ((b + 3) / 4) + 4
    let p := buildP ff.radix.to_u32 u n t
    match foldSteps (ff.encStep p tweak b d u v) (x_a, x_b) (List.range 10) with
    | none => .panicked
    | some st => .ok (st.1 ++ st.2)
  else .badInput

/-- `FF1::decrypt` for `FlexibleNumeralString`.  The loop runs
`for i in 0..10 { let i = 9 - i; … }`, i.e. rounds 9 down to 0. -/
def FF1.decrypt (ff : FF1) (tweak x : List Nat) : FF1Result :=
  if is_valid x ff.radix then
    let n := x.length
    let t := tweak.length
    let u := n / 2
    let v := n - u
    let x_a := x.take u
    let x_b := x.drop u
    let b := ff.radix.calculate_b v
    let d := 4 * ((b + 3) / 4) + 4
    let p := buildP ff.radix.to_u32 u n t
    match foldSteps (ff.decStep p tweak b d u v) (x_a, x_b)
        ((List.range 10).map (fun i => 9 - i)) with
    | none => .panicked
    | some st => .ok (st.1 ++ st.2)
  else .badInput

/-! ### AES-128

The block-cipher collaborator used by the NIST test vectors.  The state is a
16-byte list in input order (byte `i` is row `i mod 4`, column `i / 4`), and
the S-box is packed into one natural number (byte `i` of `sboxNat` is
`sbox[i]`). -/

/-- The AES S-box, packed little-endian into one natural number. -/
def sboxNat : Nat :=
  0x16bb54b00f2d99416842e6bf0d89a18cdf2855cee9871e9b948ed9691198f8e19e1dc186b95735610ef6034866b53e708a8bbd4b1f74dde8c6b4a61c2e2578ba08ae7a65eaf4566ca94ed58d6d37c8e779e4959162acd3c25c2406490a3a32e0db0b5ede14b8ee4688902a22dc4f816073195d643d7ea7c41744975fec130ccdd2f3ff1021dab6bcf5389d928f40a351a89f3c507f02f94585334d43fbaaefd0cf584c4a39becb6a5bb1fc20ed00d153842fe329b3d63b52a05a6e1b1a2c830975b227ebe28012079a059618c323c7041531d871f1e5a534ccf73f362693fdb7c072a49cafa2d4adf04759fa7dc982ca76abd7fe2b670130c56f6bf27b777c63

/-- S-box lookup. -/
def sbox (i : Nat) : Nat := sboxNat / 256 ^ i % 256

/-- Rotate a 32-bit word left by one byte. -/
def rotWord (w : Nat) : Nat := w % 2 ^ 24 * 256 + w / 2 ^ 24

/-- Apply the S-box to each byte of a 32-bit word. -/
def subWord (w : Nat) : Nat :=
  sbox (w / 2 ^ 24 % 256) * 2 ^ 24 + sbox (w / 2 ^ 16 % 256) * 2 ^ 16 +
    sbox (w / 2 ^ 8 % 256) * 2 ^ 8 + sbox (w % 256)

/-- AES round constants `rcon[1..10]` (in the top byte of a word). -/
def rcon (i : Nat) : Nat :=
  ([0x01, 0x02, 0x04, 0x08, 0x10, 0x20, 0x40, 0x80, 0x1b, 0x36].getD (i - 1) 0) * 2 ^ 24

/-- AES-128 key expansion: the 44 32-bit round-key words. -/
def expandKey (key : List Nat) : List Nat :=
  (List.range 40).foldl
    (fun ws j =>
      let i := j + 4
      let wp := ws.getD (i - 1) 0
      let w4 := ws.getD (i - 4) 0
      ws ++ [if i % 4 = 0 then w4 ^^^ (subWord (rotWord wp) ^^^ rcon (i / 4))
             else w4 ^^^ wp])
    ((List.range 4).map (fun i => beNum ((key.drop (4 * i)).take 4)))

/-- SubBytes. -/
def subBytes (st : List Nat) : List Nat := st.map sbox

/-- ShiftRows on the input-order state: row `r` rotates left by `r`. -/
def shiftRows : List Nat → List Nat
  | [a0, a1, a2, a3, a4, a5, a6, a7, a8, a9, a10, a11, a12, a13, a14, a15] =>
    [a0, a5, a10, a15, a4, a9, a14, a3, a8, a13, a2, a7, a12, a1, a6, a11]
  | st => st

/-- Multiplication by `x` in GF(2^8). -/
def xtime (a : Nat) : Nat := ((2 * a) ^^^ (if 128 ≤ a then 0x1b else 0)) % 256

/-- MixColumns on one column. -/
def mixCol (a0 a1 a2 a3 : Nat) : List Nat :=
  [xtime a0 ^^^ (xtime a1 ^^^ a1) ^^^ a2 ^^^ a3,
   a0 ^^^ xtime a1 ^^^ (xtime a2 ^^^ a2) ^^^ a3,
   a0 ^^^ a1 ^^^ xtime a2 ^^^ (xtime a3 ^^^ a3),
   (xtime a0 ^^^ a0) ^^^ a1 ^^^ a2 ^^^ xtime a3]

/-- MixColumns. -/
def mixColumns : List Nat → List Nat
  | [a0, a1, a2, a3, a4, a5, a6, a7, a8, a9, a10, a11, a12, a13, a14, a15] =>
    mixCol a0 a1 a2 a3 ++ mixCol a4 a5 a6 a7 ++ mixCol a8 a9 a10 a11 ++ mixCol a12 a13 a14 a15
  | st => st

/-- AddRoundKey: byte-wise XOR. -/
def addRoundKey (st rk : List Nat) : List Nat := List.zipWith (fun a b => a ^^^ b) st rk

/-- AES-128 block encryption of a 16-byte state. -/
def aes128Block (key input : List Nat) : List Nat :=
  let ws := expandKey key
  let rk := fun r => ((List.range 4).map (fun c => toBytesBE 4 (ws.getD (4 * r + c) 0))).flatten
  let st0 := addRoundKey input (rk 0)
  let st9 := (List.range 9).foldl
    (fun st r => addRoundKey (mixColumns (shiftRows (subBytes st))) (rk (r + 1))) st0
  addRoundKey (shiftRows (subBytes st9)) (rk 10)

/-- AES-128 as a cipher on big-endian block values. -/
def aes128 (key : List Nat) : Nat → Nat :=
  fun x => beNum (aes128Block key (toBytesBE 16 x))

/-! ### NIST SP 800-38G Sample 1 -/

/-- The AES-128 key `2B7E151628AED2A6ABF7158809CF4F3C` of Samples 1–3. -/
def sample1Key : List Nat :=
  [0x2B, 0x7E, 0x15, 0x16, 0x28, 0xAE, 0xD2, 0xA6,
   0xAB, 0xF7, 0x15, 0x88, 0x09, 0xCF, 0x4F, 0x3C]

/-- The FF1 instance of Sample 1: AES-128 under `sample1Key`, radix 10. -/
def sample1FF1 : FF1 := FF1.new (aes128 sample1Key) (u16RadixOps 10)

/-! ### Helper lemmas: byte lengths and logarithms -/

theorem toBytesBE_length (k x : Nat) : (toBytesBE k x).length = k := by
  simp [toBytesBE]

theorem logFuel_lt_iff {base : Nat} (hb : 1 < base) :
    ∀ fuel n k, 1 ≤ n → n ≤ fuel → (logFuel base fuel n < k ↔ n < base ^ k) := by
  intro fuel
  induction fuel with
  | zero => intro n k h1 h2; omega
  | succ fuel ih =>
    intro n k h1 h2
    by_cases hn : n < base
    · simp only [logFuel, if_pos hn]
      cases k with
      | zero => simp; omega
      | succ k =>
        have : base ≤ base ^ (k + 1) := by
          calc base = base ^ 1 := (pow_one base).symm
          _ ≤ base ^ (k + 1) := Nat.pow_le_pow_right (by omega) (by omega)
        simp only [Nat.succ_pos, true_iff]
        omega
    · simp only [logFuel, if_neg hn]
      cases k with
      | zero =>
        simp only [pow_zero]
        omega
      | succ k =>
        have hdiv1 : 1 ≤ n / base := (Nat.one_le_div_iff (by omega)).2 (by omega)
        have hdivf : n / base ≤ fuel := by
          have := Nat.div_lt_self (by omega : 0 < n) hb
          omega
        have := ih (n / base) k hdiv1 hdivf
        rw [Nat.succ_lt_succ_iff, this, Nat.div_lt_iff_lt_mul (by omega : 0 < base),
          pow_succ]

theorem byteLen_le {x b : Nat} (hb : 1 ≤ b) (hx : x < 256 ^ b) : byteLen x ≤ b := by
  unfold byteLen
  by_cases h0 : x = 0
  · rw [if_pos h0]; exact hb
  · rw [if_neg h0]
    have h1 : 1 ≤ x := by omega
    have := (logFuel_lt_iff (by norm_num : (1:Nat) < 256) x x b h1 le_rfl).2 hx
    omega

theorem byteLen_zero : byteLen 0 = 1 := rfl

theorem bytesBE_length (x : Nat) : (bytesBE x).length = byteLen x := toBytesBE_length _ _

theorem le_two_pow_clog2 (n : Nat) : n ≤ 2 ^ clog2 n := by
  unfold clog2
  by_cases h : n ≤ 1
  · rw [if_pos h]; simpa using h
  · rw [if_neg h]
    have h1 : 1 ≤ n - 1 := by omega
    have := (logFuel_lt_iff (by norm_num : (1:Nat) < 2) (n - 1) (n - 1)
      (logFuel 2 (n - 1) (n - 1) + 1) h1 le_rfl).1 (by omega)
    omega

theorem clog2_pos {n : Nat} (hn : 2 ≤ n) : 1 ≤ clog2 n := by
  unfold clog2
  rw [if_neg (by omega)]
  omega

theorem clog2_two_pow (m : Nat) : clog2 (2 ^ m) = m := by
  unfold clog2
  cases m with
  | zero => simp
  | succ m =>
    have h2 : 2 ≤ 2 ^ (m + 1) := by
      calc 2 = 2 ^ 1 := rfl
      _ ≤ 2 ^ (m + 1) := Nat.pow_le_pow_right (by omega) (by omega)
    rw [if_neg (by omega)]
    have h1 : 1 ≤ 2 ^ (m + 1) - 1 := by omega
    set L := logFuel 2 (2 ^ (m + 1) - 1) (2 ^ (m + 1) - 1) with hL
    have hiff := logFuel_lt_iff (by norm_num : (1:Nat) < 2) (2 ^ (m + 1) - 1)
      (2 ^ (m + 1) - 1) (m + 1) h1 le_rfl
    have hlt : L < m + 1 := hiff.2 (by omega)
    have hge : ¬ L < m := by
      intro hcon
      have hiff2 := logFuel_lt_iff (by norm_num : (1:Nat) < 2) (2 ^ (m + 1) - 1)
        (2 ^ (m + 1) - 1) m h1 le_rfl
      have := hiff2.1 hcon
      have hhalf : 2 ^ (m + 1) = 2 * 2 ^ m := by ring
      have h1m : 1 ≤ 2 ^ m := Nat.one_le_two_pow
      omega
    omega

/-! ### Helper lemmas: numeral-string arithmetic -/

theorem num_radix_nil (R : Nat) : num_radix [] R = 0 := rfl

theorem num_radix_append (l : List Nat) (a R : Nat) :
    num_radix (l ++ [a]) R = num_radix l R * R + a := by
  simp [num_radix, List.foldl_append]

theorem num_radix_lt {R : Nat} (hR : 0 < R) :
    ∀ X : List Nat, (∀ s ∈ X, s < R) → num_radix X R < R ^ X.length := by
  intro X
  induction X using List.reverseRecOn with
  | nil => intro _; simp [num_radix]
  | append_singleton l a ih =>
    intro hva
    have hl : ∀ s ∈ l, s < R := fun s hs => hva s (by simp [hs])
    have ha : a < R := hva a (by simp)
    have h1 := ih hl
    rw [num_radix_append, List.length_append, List.length_singleton, pow_succ]
    have : (num_radix l R + 1) * R ≤ R ^ l.length * R :=
      Nat.mul_le_mul_right R h1
    nlinarith [h1, ha]

theorem str_radix_length : ∀ (x R m : Nat), (str_radix x R m).length = m := by
  intro x R m
  induction m generalizing x with
  | zero => rfl
  | succ m ih => simp [str_radix, ih]

theorem str_radix_mem_lt {R : Nat} (hR : 0 < R) :
    ∀ (m x : Nat), ∀ s ∈ str_radix x R m, s < R := by
  intro m
  induction m with
  | zero => intro x s hs; simp [str_radix] at hs
  | succ m ih =>
    intro x s hs
    simp only [str_radix, List.mem_append, List.mem_singleton] at hs
    rcases hs with h | h
    · exact ih _ s h
    · rw [h]; exact Nat.mod_lt _ hR

theorem num_str {R : Nat} (hR : 0 < R) :
    ∀ (m x : Nat), num_radix (str_radix x R m) R = x % R ^ m := by
  intro m
  induction m with
  | zero => intro x; simp [str_radix, num_radix, Nat.mod_one]
  | succ m ih =>
    intro x
    rw [str_radix, num_radix_append, ih]
    rw [pow_succ']
    rw [Nat.mod_mul]
    ring

theorem str_num {R : Nat} (hR : 0 < R) :
    ∀ X : List Nat, (∀ s ∈ X, s < R) → str_radix (num_radix X R) R X.length = X := by
  intro X
  induction X using List.reverseRecOn with
  | nil => intro _; rfl
  | append_singleton l a ih =>
    intro hva
    have hl : ∀ s ∈ l, s < R := fun s hs => hva s (by simp [hs])
    have ha : a < R := hva a (by simp)
    rw [num_radix_append, List.length_append, List.length_singleton, str_radix]
    have hdiv : (num_radix l R * R + a) / R = num_radix l R := by
      rw [Nat.mul_comm (num_radix l R) R, Nat.mul_add_div (by omega)]
      simp [Nat.div_eq_of_lt ha]
    have hmod : (num_radix l R * R + a) % R = a := by
      rw [Nat.mul_comm (num_radix l R) R, Nat.mul_add_mod]
      exact Nat.mod_eq_of_lt ha
    rw [hdiv, hmod, ih hl]

theorem pow_eq (x e : Nat) : pow x e = x ^ e := by
  induction e with
  | zero => rfl
  | succ e ih =>
    unfold pow
    rw [List.range_succ, List.foldl_append]
    unfold pow at ih
    rw [ih, List.foldl_cons, List.foldl_nil, pow_succ]

/-! ### Helper lemmas: truncated vs. euclidean remainder -/

theorem neg_lt_tmod (a : Int) {M : Int} (h : 0 < M) : -M < a.tmod M := by
  obtain ⟨k, hk⟩ := Int.eq_succ_of_zero_lt h
  subst hk
  match a with
  | Int.ofNat n =>
    have h0 : (0 : Int) ≤ Int.tmod (Int.ofNat n) (k.succ : Int) :=
      Int.tmod_nonneg _ (Int.ofNat_nonneg n)
    omega
  | Int.negSucc n =>
    have heq : Int.tmod (Int.negSucc n) ((k.succ : Nat) : Int) =
        -((n.succ % k.succ : Nat) : Int) := rfl
    have hlt : n.succ % k.succ < k.succ := Nat.mod_lt _ k.succ_pos
    show -((k.succ : Nat) : Int) < Int.tmod (Int.negSucc n) ((k.succ : Nat) : Int)
    rw [heq]
    omega

theorem emod_eq_tmod_emod (a M : Int) : a % M = a.tmod M % M := by
  conv_lhs => rw [← Int.tmod_add_tdiv a M]
  rw [Int.add_mul_emod_self_left]

theorem rustMod_eq_emod (a : Int) {M : Int} (hM : 0 < M) : rustMod a M = a % M := by
  unfold rustMod
  by_cases hneg : a.tmod M < 0
  · rw [if_pos hneg]
    have h1 : 0 ≤ a.tmod M + M := by have := neg_lt_tmod a hM; omega
    rw [Int.tmod_eq_emod h1 (le_of_lt hM)]
    rw [emod_eq_tmod_emod a M]
    have := Int.add_mul_emod_self_left (a.tmod M) M 1
    simpa using this.symm
  · rw [if_neg hneg]
    rw [emod_eq_tmod_emod a M]
    exact (Int.emod_eq_of_lt (by omega) (Int.tmod_lt_of_pos a hM)).symm

/-! ### Helper lemmas: validity -/

theorem foldl_and_eq (p : Nat → Bool) :
    ∀ (xs : List Nat) (a : Bool), xs.foldl (fun acc n => acc && p n) a = (a && xs.all p) := by
  intro xs
  induction xs with
  | nil => intro a; simp
  | cons x xs ih =>
    intro a
    rw [List.foldl_cons, ih, List.all_cons, Bool.and_assoc]

theorem is_valid_eq_all (xs : List Nat) (r : RadixOps) :
    is_valid xs r = xs.all r.check_in_range := by
  unfold is_valid
  rw [foldl_and_eq, Bool.true_and]

theorem check_u16_iff {R n : Nat} (hR : 0 < R) :
    ((u16RadixOps R).check_in_range n = true) ↔ n < R := by
  show ((n % R == n) = true) ↔ n < R
  rw [beq_iff_eq]
  constructor
  · intro h
    have := Nat.mod_lt n hR
    omega
  · exact Nat.mod_eq_of_lt

theorem is_valid_u16_iff {R : Nat} (hR : 0 < R) (xs : List Nat) :
    is_valid xs (u16RadixOps R) = true ↔ ∀ s ∈ xs, s < R := by
  rw [is_valid_eq_all, List.all_eq_true]
  constructor
  · intro h s hs
    exact (check_u16_iff hR).1 (h s hs)
  · intro h s hs
    exact (check_u16_iff hR).2 (h s hs)

/-! ### Helper lemmas: P and Q construction -/

theorem qPad_spec (t b : Nat) : qPad t b < 16 ∧ (t + b + 1 + qPad t b) % 16 = 0 := by
  unfold qPad
  set s : Int := -(t : Int) - (b : Int) - 1 with hs
  have h1 : (s.tmod 16 + 16) % 16 = s % 16 := by
    rw [emod_eq_tmod_emod s 16]
    have := Int.add_mul_emod_self_left (s.tmod 16) 16 1
    simpa using this
  rw [h1]
  have h2 : 0 ≤ s % 16 := Int.emod_nonneg s (by norm_num)
  have h3 : s % 16 < 16 := Int.emod_lt_of_pos s (by norm_num)
  have h4 : s + ((t + b + 1 : Nat) : Int) = 0 := by push_cast [hs]; ring
  omega

theorem qPad_total (t b : Nat) :
    t + qPad t b + 1 + b = 16 * ((t + b + 1 + 15) / 16) := by
  have := qPad_spec t b
  omega

theorem buildP_length (r u n t : Nat) : (buildP r u n t).length = 16 := by
  simp [buildP, toBytesBE_length]

theorem buildQ_eq_some {b x : Nat} (tweak : List Nat) (i : Nat)
    (hb : 1 ≤ b) (hx : x < 256 ^ b) :
    ∃ q, buildQ tweak b i x = some q ∧
      q.length = tweak.length + qPad tweak.length b + 1 + b := by
  have hlen : (bytesBE x).length ≤ b := by
    rw [bytesBE_length]; exact byteLen_le hb hx
  simp only [buildQ]
  rw [if_neg (by omega)]
  refine ⟨_, rfl, ?_⟩
  simp only [List.length_append, List.length_replicate, List.length_cons,
    List.length_nil]
  omega

/-! ### Helper lemmas: round inversion -/

theorem foldSteps_append (step : List Nat × List Nat → Nat → Option (List Nat × List Nat))
    (l1 l2 : List Nat) :
    ∀ st, foldSteps step st (l1 ++ l2) =
      match foldSteps step st l1 with
      | none => none
      | some st' => foldSteps step st' l2 := by
  induction l1 with
  | nil => intro st; simp [foldSteps]
  | cons i rest ih =>
    intro st
    rw [List.cons_append]
    show (match step st i with
      | none => none
      | some st1 => foldSteps step st1 (rest ++ l2)) =
      (match (match step st i with
        | none => none
        | some st1 => foldSteps step st1 rest) with
      | none => none
      | some st' => foldSteps step st' l2)
    cases step st i with
    | none => rfl
    | some st1 => exact ih st1

/-- Round `i` of decryption undoes round `i` of encryption, provided the `A`
half entering the encryption round is a valid numeral string of the length
`m` used in that round. -/
theorem decStep_encStep (ff : FF1) (p tweak : List Nat) (b d u v i : Nat)
    (A B : List Nat) (st' : List Nat × List Nat)
    (hR : 2 ≤ ff.radix_bi)
    (hA : ∀ s ∈ A, s < ff.radix_bi)
    (hAl : A.length = (if i % 2 = 0 then u else v))
    (henc : ff.encStep p tweak b d u v (A, B) i = some st') :
    ff.decStep p tweak b d u v st' i = some (A, B) := by
  cases hq : buildQ tweak b i (num_radix B ff.radix_bi) with
  | none => simp [FF1.encStep, hq] at henc
  | some q =>
    simp only [FF1.encStep, hq] at henc
    set R := ff.radix_bi with hRdef
    set m := (if i % 2 = 0 then u else v) with hm
    set y := beNum (generate_s ff.ciph (ff.prf (p ++ q)) d) with hy
    have hst' : st' = (B, str_radix ((num_radix A R + y) % pow R m) R m) :=
      (Option.some.inj henc).symm
    subst hst'
    simp only [FF1.decStep, hq]
    have hRpos : 0 < R := by omega
    have hMpos : 0 < R ^ m := Nat.pos_pow_of_pos m hRpos
    have hnumA : num_radix A R < R ^ m := by
      rw [← hAl]; exact num_radix_lt hRpos A hA
    have hnumC : num_radix (str_radix ((num_radix A R + y) % pow R m) R m) R
        = (num_radix A R + y) % R ^ m := by
      rw [num_str hRpos, pow_eq]
      exact Nat.mod_mod_of_dvd _ dvd_rfl
    have hint : (rustMod ((num_radix
        (str_radix ((num_radix A R + y) % pow R m) R m) R : Int) - (y : Int))
        ((pow R m : Nat) : Int)).toNat = num_radix A R := by
      rw [hnumC, pow_eq]
      have hMZ : (0 : Int) < ((R ^ m : Nat) : Int) := by exact_mod_cast hMpos
      rw [rustMod_eq_emod _ hMZ]
      have h1 : (((num_radix A R + y) % R ^ m : Nat) : Int) =
          ((num_radix A R : Int) + (y : Int)) % ((R ^ m : Nat) : Int) := by
        push_cast
        ring_nf
      rw [h1]
      rw [Int.sub_emod, Int.emod_emod_of_dvd _ dvd_rfl, ← Int.sub_emod]
      have h2 : (num_radix A R : Int) + (y : Int) - (y : Int) = (num_radix A R : Int) := by
        ring
      rw [h2]
      rw [Int.emod_eq_of_lt (by positivity) (by exact_mod_cast hnumA)]
      simp
    rw [hint]
    have hstr : str_radix (num_radix A R) R m = A := by
      rw [← hAl]
      exact str_num hRpos A hA
    rw [hstr]

/-- The encryption loop succeeds on valid halves of the right lengths, and
its result is again a pair of valid halves whose lengths continue the
alternation. -/
theorem foldSteps_enc_inv (ff : FF1) (p tweak : List Nat) (b d u v : Nat)
    (hR : 2 ≤ ff.radix_bi) (huv : u ≤ v) (hb : 1 ≤ b)
    (hRv : ff.radix_bi ^ v ≤ 256 ^ b) :
    ∀ (k j : Nat) (A B : List Nat),
      (∀ s ∈ A, s < ff.radix_bi) → (∀ s ∈ B, s < ff.radix_bi) →
      A.length = (if j % 2 = 0 then u else v) →
      B.length = (if (j + 1) % 2 = 0 then u else v) →
      ∃ A' B',
        foldSteps (ff.encStep p tweak b d u v) (A, B) (List.range' j k) = some (A', B') ∧
        (∀ s ∈ A', s < ff.radix_bi) ∧ (∀ s ∈ B', s < ff.radix_bi) ∧
        A'.length = (if (j + k) % 2 = 0 then u else v) ∧
        B'.length = (if (j + k + 1) % 2 = 0 then u else v) := by
  intro k
  induction k with
  | zero =>
    intro j A B hA hB hAl hBl
    exact ⟨A, B, rfl, hA, hB, hAl, hBl⟩
  | succ k ih =>
    intro j A B hA hB hAl hBl
    have hRpos : 0 < ff.radix_bi := by omega
    have hnumB : num_radix B ff.radix_bi < 256 ^ b := by
      have h1 : num_radix B ff.radix_bi < ff.radix_bi ^ B.length :=
        num_radix_lt hRpos B hB
      have h2 : ff.radix_bi ^ B.length ≤ ff.radix_bi ^ v := by
        apply Nat.pow_le_pow_right (by omega)
        rw [hBl]
        split <;> omega
      omega
    obtain ⟨q, hq, _⟩ := buildQ_eq_some tweak j hb hnumB
    have hstep : ff.encStep p tweak b d u v (A, B) j =
        some (B, str_radix ((num_radix A ff.radix_bi +
          beNum (generate_s ff.ciph (ff.prf (p ++ q)) d)) %
          pow ff.radix_bi (if j % 2 = 0 then u else v)) ff.radix_bi
          (if j % 2 = 0 then u else v)) := by
      simp only [FF1.encStep, hq]
    set C := str_radix ((num_radix A ff.radix_bi +
      beNum (generate_s ff.ciph (ff.prf (p ++ q)) d)) %
      pow ff.radix_bi (if j % 2 = 0 then u else v)) ff.radix_bi
      (if j % 2 = 0 then u else v) with hC
    have hCval : ∀ s ∈ C, s < ff.radix_bi := str_radix_mem_lt hRpos _ _
    have hClen : C.length = (if j % 2 = 0 then u else v) := str_radix_length _ _ _
    have hmod : (j + 1 + 1) % 2 = j % 2 := by omega
    obtain ⟨A', B', hfold, hA', hB', hAl', hBl'⟩ :=
      ih (j + 1) B C hB hCval hBl (by rw [hmod] at *; exact hClen)
    refine ⟨A', B', ?_, hA', hB', ?_, ?_⟩
    · have hrange : List.range' j (k + 1) = j :: List.range' (j + 1) k := by
        simp [List.range'_succ]
      rw [hrange]
      show (match ff.encStep p tweak b d u v (A, B) j with
        | none => none
        | some st1 => foldSteps (ff.encStep p tweak b d u v) st1 (List.range' (j + 1) k)) =
        some (A', B')
      rw [hstep]
      exact hfold
    · have : j + (k + 1) = j + 1 + k := by omega
      rw [this]
      exact hAl'
    · have : j + (k + 1) + 1 = j + 1 + k + 1 := by omega
      rw [this]
      exact hBl'

/-- Running the decryption loop over the reversed round indices undoes the
encryption loop. -/
theorem foldSteps_dec_of_enc (ff : FF1) (p tweak : List Nat) (b d u v : Nat)
    (hR : 2 ≤ ff.radix_bi) :
    ∀ (k j : Nat) (A B A' B' : List Nat),
      (∀ s ∈ A, s < ff.radix_bi) → (∀ s ∈ B, s < ff.radix_bi) →
      A.length = (if j % 2 = 0 then u else v) →
      B.length = (if (j + 1) % 2 = 0 then u else v) →
      foldSteps (ff.encStep p tweak b d u v) (A, B) (List.range' j k) = some (A', B') →
      foldSteps (ff.decStep p tweak b d u v) (A', B') (List.range' j k).reverse =
        some (A, B) := by
  intro k
  induction k with
  | zero =>
    intro j A B A' B' hA hB hAl hBl hfold
    have h1 : (A, B) = (A', B') := Option.some.inj hfold
    obtain ⟨h2, h3⟩ := Prod.mk.inj h1
    subst h2
    subst h3
    rfl
  | succ k ih =>
    intro j A B A' B' hA hB hAl hBl hfold
    have hrange : List.range' j (k + 1) = j :: List.range' (j + 1) k := by
      simp [List.range'_succ]
    rw [hrange] at hfold
    rw [show foldSteps (ff.encStep p tweak b d u v) (A, B) (j :: List.range' (j + 1) k) =
      (match ff.encStep p tweak b d u v (A, B) j with
        | none => none
        | some st1 =>
          foldSteps (ff.encStep p tweak b d u v) st1 (List.range' (j + 1) k)) from rfl]
      at hfold
    cases hstep : ff.encStep p tweak b d u v (A, B) j with
    | none =>
      rw [hstep] at hfold
      exact absurd hfold (by simp)
    | some st1 =>
      rw [hstep] at hfold
      cases hq : buildQ tweak b j (num_radix B ff.radix_bi) with
      | none => simp [FF1.encStep, hq] at hstep
      | some q =>
        have hst1 : st1 = (B, str_radix ((num_radix A ff.radix_bi +
            beNum (generate_s ff.ciph (ff.prf (p ++ q)) d)) %
            pow ff.radix_bi (if j % 2 = 0 then u else v)) ff.radix_bi
            (if j % 2 = 0 then u else v)) := by
          have h := hstep
          simp only [FF1.encStep, hq] at h
          exact (Option.some.inj h).symm
        have hRpos : 0 < ff.radix_bi := by omega
        set C := str_radix ((num_radix A ff.radix_bi +
          beNum (generate_s ff.ciph (ff.prf (p ++ q)) d)) %
          pow ff.radix_bi (if j % 2 = 0 then u else v)) ff.radix_bi
          (if j % 2 = 0 then u else v) with hC
        have hCval : ∀ s ∈ C, s < ff.radix_bi := str_radix_mem_lt hRpos _ _
        have hClen : C.length = (if j % 2 = 0 then u else v) := str_radix_length _ _ _
        have hmod : (j + 1 + 1) % 2 = j % 2 := by omega
        rw [hst1] at hfold
        have hfold2 : foldSteps (ff.encStep p tweak b d u v) (B, C)
            (List.range' (j + 1) k) = some (A', B') := hfold
        have hrec := ih (j + 1) B C A' B' hB hCval hBl
          (by rw [hmod]; exact hClen) hfold2
        have hrev : (List.range' j (k + 1)).reverse =
            (List.range' (j + 1) k).reverse ++ [j] := by
          rw [hrange, List.reverse_cons]
        rw [hrev]
        rw [foldSteps_append]
        rw [hrec]
        show foldSteps (ff.decStep p tweak b d u v) (B, C) [j] = some (A, B)
        have hdec : ff.decStep p tweak b d u v (B, C) j = some (A, B) := by
          apply decStep_encStep ff p tweak b d u v j A B (B, C) hR hA hAl
          rw [hstep, hst1]
        show (match ff.decStep p tweak b d u v (B, C) j with
          | none => none
          | some st' => foldSteps (ff.decStep p tweak b d u v) st' []) = some (A, B)
        rw [hdec]
        rfl

theorem encrypt_eq_of_valid (ff : FF1) (tweak x : List Nat)
    (hv : is_valid x ff.radix = true) :
    ff.encrypt tweak x =
      match foldSteps (ff.encStep
          (buildP ff.radix.to_u32 (x.length / 2) x.length tweak.length) tweak
          (ff.radix.calculate_b (x.length - x.length / 2))
          (4 * ((ff.radix.calculate_b (x.length - x.length / 2) + 3) / 4) + 4)
          (x.length / 2) (x.length - x.length / 2))
        (x.take (x.length / 2), x.drop (x.length / 2)) (List.range 10) with
      | none => FF1Result.panicked
      | some st => FF1Result.ok (st.1 ++ st.2) := by
  unfold FF1.encrypt
  rw [if_pos hv]

theorem decrypt_eq_of_valid (ff : FF1) (tweak x : List Nat)
    (hv : is_valid x ff.radix = true) :
    ff.decrypt tweak x =
      match foldSteps (ff.decStep
          (buildP ff.radix.to_u32 (x.length / 2) x.length tweak.length) tweak
          (ff.radix.calculate_b (x.length - x.length / 2))
          (4 * ((ff.radix.calculate_b (x.length - x.length / 2) + 3) / 4) + 4)
          (x.length / 2) (x.length - x.length / 2))
        (x.take (x.length / 2), x.drop (x.length / 2))
        ((List.range 10).map (fun i => 9 - i)) with
      | none => FF1Result.panicked
      | some st => FF1Result.ok (st.1 ++ st.2) := by
  unfold FF1.decrypt
  rw [if_pos hv]

/-- Facts about the general radix's `b`: it is at least one byte, and bounds
`radix ^ v`. -/
theorem u16_b_facts {R v : Nat} (hR : 2 ≤ R) (hv : 1 ≤ v) :
    1 ≤ (u16RadixOps R).calculate_b v ∧
      R ^ v ≤ 256 ^ (u16RadixOps R).calculate_b v := by
  show 1 ≤ (clog2 (R ^ v) + 7) / 8 ∧ R ^ v ≤ 256 ^ ((clog2 (R ^ v) + 7) / 8)
  have hRv2 : 2 ≤ R ^ v := by
    calc 2 ≤ R := hR
    _ = R ^ 1 := (pow_one R).symm
    _ ≤ R ^ v := Nat.pow_le_pow_right (by omega) hv
  have hc := clog2_pos hRv2
  refine ⟨by omega, ?_⟩
  calc R ^ v ≤ 2 ^ clog2 (R ^ v) := le_two_pow_clog2 _
  _ ≤ 2 ^ (8 * ((clog2 (R ^ v) + 7) / 8)) := Nat.pow_le_pow_right (by omega) (by omega)
  _ = 256 ^ ((clog2 (R ^ v) + 7) / 8) := by
      rw [pow_mul]
      norm_num

theorem foldSteps_none_head (step : List Nat × List Nat → Nat → Option (List Nat × List Nat))
    (st : List Nat × List Nat) (i : Nat) (rest : List Nat)
    (h : step st i = none) : foldSteps step st (i :: rest) = none := by
  show (match step st i with
    | none => none
    | some st' => foldSteps step st' rest) = none
  rw [h]

/-- With `b = 0` and operand value 0 (the empty numeral string), the one-byte
serialization `[0]` is longer than `b`, so the padding count underflows. -/
theorem buildQ_b_zero (tweak : List Nat) (i : Nat) : buildQ tweak 0 i 0 = none := by
  have hcond : 0 < (bytesBE 0).length := by
    rw [bytesBE_length, byteLen_zero]
    omega
  simp only [buildQ]
  rw [if_pos hcond]

theorem calculate_b_u16_zero (R : Nat) : (u16RadixOps R).calculate_b 0 = 0 := by
  show (clog2 (R ^ 0) + 7) / 8 = 0
  rw [pow_zero]
  rfl

theorem encrypt_nil_panicked (ciph : Nat → Nat) (R : Nat) (tweak : List Nat) :
    (FF1.new ciph (u16RadixOps R)).encrypt tweak [] = .panicked := by
  have hval : is_valid [] (FF1.new ciph (u16RadixOps R)).radix = true := rfl
  rw [encrypt_eq_of_valid _ tweak [] hval]
  have hstep : (FF1.new ciph (u16RadixOps R)).encStep
      (buildP (FF1.new ciph (u16RadixOps R)).radix.to_u32 0 0 tweak.length) tweak
      ((FF1.new ciph (u16RadixOps R)).radix.calculate_b 0)
      (4 * (((FF1.new ciph (u16RadixOps R)).radix.calculate_b 0 + 3) / 4) + 4)
      0 0 (([] : List Nat), ([] : List Nat)) 0 = none := by
    have hb : (FF1.new ciph (u16RadixOps R)).radix.calculate_b 0 = 0 :=
      calculate_b_u16_zero R
    simp only [FF1.encStep, hb]
    rw [show num_radix [] (FF1.new ciph (u16RadixOps R)).radix_bi = 0 from rfl]
    rw [buildQ_b_zero]
  have hlist : List.range 10 = 0 :: [1, 2, 3, 4, 5, 6, 7, 8, 9] := by rfl
  rw [hlist]
  simp only [List.length_nil, Nat.zero_div, Nat.sub_self, List.take_nil, List.drop_nil]
  rw [foldSteps_none_head _ _ _ _ hstep]

theorem decrypt_nil_panicked (ciph : Nat → Nat) (R : Nat) (tweak : List Nat) :
    (FF1.new ciph (u16RadixOps R)).decrypt tweak [] = .panicked := by
  have hval : is_valid [] (FF1.new ciph (u16RadixOps R)).radix = true := rfl
  rw [decrypt_eq_of_valid _ tweak [] hval]
  have hstep : (FF1.new ciph (u16RadixOps R)).decStep
      (buildP (FF1.new ciph (u16RadixOps R)).radix.to_u32 0 0 tweak.length) tweak
      ((FF1.new ciph (u16RadixOps R)).radix.calculate_b 0)
      (4 * (((FF1.new ciph (u16RadixOps R)).radix.calculate_b 0 + 3) / 4) + 4)
      0 0 (([] : List Nat), ([] : List Nat)) 9 = none := by
    have hb : (FF1.new ciph (u16RadixOps R)).radix.calculate_b 0 = 0 :=
      calculate_b_u16_zero R
    simp only [FF1.decStep, hb]
    rw [show num_radix [] (FF1.new ciph (u16RadixOps R)).radix_bi = 0 from rfl]
    rw [buildQ_b_zero]
  have hlist : (List.range 10).map (fun i => 9 - i) =
      9 :: [8, 7, 6, 5, 4, 3, 2, 1, 0] := by rfl
  rw [hlist]
  simp only [List.length_nil, Nat.zero_div, Nat.sub_self, List.take_nil, List.drop_nil]
  rw [foldSteps_none_head _ _ _ _ hstep]

/-- Encryption with the general radix succeeds on a non-empty valid input:
the round loop returns halves of lengths `u` and `v` whose symbols are all
below the radix. -/
theorem encrypt_u16_ok (ciph : Nat → Nat) (R : Nat) (tweak x : List Nat)
    (hR : 2 ≤ R) (hx : ∀ s ∈ x, s < R) (hn : 1 ≤ x.length) :
    ∃ A' B',
      foldSteps ((FF1.new ciph (u16RadixOps R)).encStep
          (buildP (FF1.new ciph (u16RadixOps R)).radix.to_u32 (x.length / 2) x.length
            tweak.length)
          tweak ((FF1.new ciph (u16RadixOps R)).radix.calculate_b (x.length - x.length / 2))
          (4 * (((FF1.new ciph (u16RadixOps R)).radix.calculate_b
            (x.length - x.length / 2) + 3) / 4) + 4)
          (x.length / 2) (x.length - x.length / 2))
        (x.take (x.length / 2), x.drop (x.length / 2)) (List.range' 0 10) = some (A', B') ∧
      (FF1.new ciph (u16RadixOps R)).encrypt tweak x = .ok (A' ++ B') ∧
      A'.length = x.length / 2 ∧ B'.length = x.length - x.length / 2 ∧
      (∀ s ∈ A', s < R) ∧ (∀ s ∈ B', s < R) := by
  have hv1 : 1 ≤ x.length - x.length / 2 := by omega
  obtain ⟨hb, hRv⟩ := u16_b_facts hR hv1
  have htl : (x.take (x.length / 2)).length = x.length / 2 := by
    rw [List.length_take]
    exact Nat.min_eq_left (Nat.div_le_self _ _)
  have hdl : (x.drop (x.length / 2)).length = x.length - x.length / 2 :=
    List.length_drop _ _
  obtain ⟨A', B', hfold, hA', hB', hAl', hBl'⟩ :=
    foldSteps_enc_inv (FF1.new ciph (u16RadixOps R))
      (buildP (FF1.new ciph (u16RadixOps R)).radix.to_u32 (x.length / 2) x.length
        tweak.length)
      tweak ((FF1.new ciph (u16RadixOps R)).radix.calculate_b (x.length - x.length / 2))
      (4 * (((FF1.new ciph (u16RadixOps R)).radix.calculate_b
        (x.length - x.length / 2) + 3) / 4) + 4)
      (x.length / 2) (x.length - x.length / 2)
      hR (by omega) hb hRv 10 0 (x.take (x.length / 2)) (x.drop (x.length / 2))
      (fun s hs => hx s (List.mem_of_mem_take hs))
      (fun s hs => hx s (List.mem_of_mem_drop hs))
      (by rw [if_pos (by norm_num : 0 % 2 = 0)]; exact htl)
      (by rw [if_neg (by norm_num : ¬(0 + 1) % 2 = 0)]; exact hdl)
  have hAl2 : A'.length = x.length / 2 := by
    rw [hAl', if_pos (by norm_num : (0 + 10) % 2 = 0)]
  have hBl2 : B'.length = x.length - x.length / 2 := by
    rw [hBl', if_neg (by norm_num : ¬(0 + 10 + 1) % 2 = 0)]
  have hvalid : is_valid x (FF1.new ciph (u16RadixOps R)).radix = true :=
    (is_valid_u16_iff (by omega) x).2 hx
  refine ⟨A', B', hfold, ?_, hAl2, hBl2, hA', hB'⟩
  rw [encrypt_eq_of_valid _ tweak x hvalid, List.range_eq_range', hfold]

/-- Claim C1: for every key (any keyed block cipher), radix `R ∈ [2, 2^16)`,
tweak, and numeral string `x` with symbols in `[0, R)` and `|x| ≥ 2`,
encryption succeeds and decryption of the result returns `x`:
`decrypt(tweak, encrypt(tweak, x)) = x`. -/
theorem claim_C1_round_trip (ciph : Nat → Nat) (R : Nat) (tweak x : List Nat)
    (hR2 : 2 ≤ R) (hRu : R < 65536) (hx : ∀ s ∈ x, s < R) (hn : 2 ≤ x.length) :
    ∃ y, (FF1.new ciph (u16RadixOps R)).encrypt tweak x = .ok y ∧
      (FF1.new ciph (u16RadixOps R)).decrypt tweak y = .ok x := by
  obtain ⟨A', B', hfold, henc, hAl, hBl, hAv, hBv⟩ :=
    encrypt_u16_ok ciph R tweak x hR2 hx (by omega)
  refine ⟨A' ++ B', henc, ?_⟩
  have hyval : ∀ s ∈ A' ++ B', s < R := by
    intro s hs
    rcases List.mem_append.mp hs with h | h
    · exact hAv s h
    · exact hBv s h
  have hyvalid : is_valid (A' ++ B') (FF1.new ciph (u16RadixOps R)).radix = true :=
    (is_valid_u16_iff (by omega) _).2 hyval
  have hylen : (A' ++ B').length = x.length := by
    rw [List.length_append, hAl, hBl]
    omega
  rw [decrypt_eq_of_valid _ tweak _ hyvalid, hylen]
  rw [List.take_left' hAl, List.drop_left' hAl]
  have hlist : (List.range 10).map (fun i => 9 - i) = (List.range' 0 10).reverse := by rfl
  rw [hlist]
  have hdecfold := foldSteps_dec_of_enc (FF1.new ciph (u16RadixOps R))
    (buildP (FF1.new ciph (u16RadixOps R)).radix.to_u32 (x.length / 2) x.length
      tweak.length)
    tweak ((FF1.new ciph (u16RadixOps R)).radix.calculate_b (x.length - x.length / 2))
    (4 * (((FF1.new ciph (u16RadixOps R)).radix.calculate_b
      (x.length - x.length / 2) + 3) / 4) + 4)
    (x.length / 2) (x.length - x.length / 2) hR2 10 0
    (x.take (x.length / 2)) (x.drop (x.length / 2)) A' B'
    (fun s hs => hx s (List.mem_of_mem_take hs))
    (fun s hs => hx s (List.mem_of_mem_drop hs))
    (by
      rw [if_pos (by norm_num : 0 % 2 = 0), List.length_take]
      exact Nat.min_eq_left (Nat.div_le_self _ _))
    (by
      rw [if_neg (by norm_num : ¬(0 + 1) % 2 = 0)]
      exact List.length_drop _ _)
    hfold
  rw [hdecfold]
  show FF1Result.ok (x.take (x.length / 2) ++ x.drop (x.length / 2)) = FF1Result.ok x
  rw [List.take_append_drop]

/-- Witness for C1 at cipher `id`, radix 10, empty tweak, `x = [0, 1]`. -/
theorem claim_C1_witness :
    (2 ≤ 10 ∧ (10 : Nat) < 65536 ∧ (∀ s ∈ [0, 1], s < 10) ∧ 2 ≤ [0, 1].length) ∧
    ∃ y, (FF1.new (fun blk => blk) (u16RadixOps 10)).encrypt [] [0, 1] = .ok y ∧
      (FF1.new (fun blk => blk) (u16RadixOps 10)).decrypt [] y = .ok [0, 1] :=
  ⟨⟨by norm_num, by norm_num, by decide, by decide⟩,
    claim_C1_round_trip (fun blk => blk) 10 [] [0, 1]
      (by norm_num) (by norm_num) (by decide) (by decide)⟩

set_option maxRecDepth 1000000 in
/-- Claim C2: with AES-128 under key `2B7E151628AED2A6ABF7158809CF4F3C`,
radix 10 and the empty tweak, `encrypt` maps `0123456789` to `2433477484`
and `decrypt` maps `2433477484` back to `0123456789` (SP 800-38G Sample 1). -/
theorem claim_C2_sample1 :
    sample1FF1.encrypt [] [0, 1, 2, 3, 4, 5, 6, 7, 8, 9] =
      .ok [2, 4, 3, 3, 4, 7, 7, 4, 8, 4] ∧
    sample1FF1.decrypt [] [2, 4, 3, 3, 4, 7, 7, 4, 8, 4] =
      .ok [0, 1, 2, 3, 4, 5, 6, 7, 8, 9] := by
  decide

theorem encrypt_ne_badInput_of_valid (ff : FF1) (tweak x : List Nat)
    (hv : is_valid x ff.radix = true) : ff.encrypt tweak x ≠ .badInput := by
  rw [encrypt_eq_of_valid ff tweak x hv]
  cases hfs : foldSteps (ff.encStep
      (buildP ff.radix.to_u32 (x.length / 2) x.length tweak.length) tweak
      (ff.radix.calculate_b (x.length - x.length / 2))
      (4 * ((ff.radix.calculate_b (x.length - x.length / 2) + 3) / 4) + 4)
      (x.length / 2) (x.length - x.length / 2))
    (x.take (x.length / 2), x.drop (x.length / 2)) (List.range 10) with
  | none => simp
  | some st => simp

theorem decrypt_ne_badInput_of_valid (ff : FF1) (tweak x : List Nat)
    (hv : is_valid x ff.radix = true) : ff.decrypt tweak x ≠ .badInput := by
  rw [decrypt_eq_of_valid ff tweak x hv]
  cases hfs : foldSteps (ff.decStep
      (buildP ff.radix.to_u32 (x.length / 2) x.length tweak.length) tweak
      (ff.radix.calculate_b (x.length - x.length / 2))
      (4 * ((ff.radix.calculate_b (x.length - x.length / 2) + 3) / 4) + 4)
      (x.length / 2) (x.length - x.length / 2))
    (x.take (x.length / 2), x.drop (x.length / 2))
    ((List.range 10).map (fun i => 9 - i)) with
  | none => simp
  | some st => simp

theorem encrypt_badInput_iff (ff : FF1) (tweak x : List Nat) :
    ff.encrypt tweak x = .badInput ↔ is_valid x ff.radix = false := by
  constructor
  · intro h
    by_contra hne
    have hv : is_valid x ff.radix = true := by
      cases hb : is_valid x ff.radix
      · exact absurd hb hne
      · rfl
    exact encrypt_ne_badInput_of_valid ff tweak x hv h
  · intro h
    unfold FF1.encrypt
    rw [if_neg (by simp [h])]

theorem decrypt_badInput_iff (ff : FF1) (tweak x : List Nat) :
    ff.decrypt tweak x = .badInput ↔ is_valid x ff.radix = false := by
  constructor
  · intro h
    by_contra hne
    have hv : is_valid x ff.radix = true := by
      cases hb : is_valid x ff.radix
      · exact absurd hb hne
      · rfl
    exact decrypt_ne_badInput_of_valid ff tweak x hv h
  · intro h
    unfold FF1.decrypt
    rw [if_neg (by simp [h])]

theorem invalid_u16_iff {R : Nat} (hR : 0 < R) (x : List Nat) :
    is_valid x (u16RadixOps R) = false ↔ ∃ s ∈ x, R ≤ s := by
  constructor
  · intro h
    by_contra hcon
    push_neg at hcon
    have : is_valid x (u16RadixOps R) = true :=
      (is_valid_u16_iff hR x).2 (fun s hs => by have := hcon s hs; omega)
    rw [this] at h
    exact absurd h (by simp)
  · intro ⟨s, hs, hge⟩
    cases hb : is_valid x (u16RadixOps R)
    · rfl
    · have := (is_valid_u16_iff hR x).1 hb s hs
      omega

/-- Claim C3: `encrypt` and `decrypt` fail with `BadInput` exactly when some
symbol is `≥ R`; on such inputs the result does not depend on the block
cipher at all (the cipher is never invoked), and the error carries no
output. -/
theorem claim_C3_bad_input (ciph ciph' : Nat → Nat) (R : Nat) (tweak x : List Nat)
    (hR : 2 ≤ R) :
    ((FF1.new ciph (u16RadixOps R)).encrypt tweak x = .badInput ↔ ∃ s ∈ x, R ≤ s) ∧
    ((FF1.new ciph (u16RadixOps R)).decrypt tweak x = .badInput ↔ ∃ s ∈ x, R ≤ s) ∧
    ((∃ s ∈ x, R ≤ s) →
      (FF1.new ciph (u16RadixOps R)).encrypt tweak x =
        (FF1.new ciph' (u16RadixOps R)).encrypt tweak x ∧
      (FF1.new ciph (u16RadixOps R)).decrypt tweak x =
        (FF1.new ciph' (u16RadixOps R)).decrypt tweak x) := by
  have h1 := encrypt_badInput_iff (FF1.new ciph (u16RadixOps R)) tweak x
  have h2 := decrypt_badInput_iff (FF1.new ciph (u16RadixOps R)) tweak x
  have h3 := encrypt_badInput_iff (FF1.new ciph' (u16RadixOps R)) tweak x
  have h4 := decrypt_badInput_iff (FF1.new ciph' (u16RadixOps R)) tweak x
  have hiff := invalid_u16_iff (by omega : 0 < R) x
  refine ⟨h1.trans hiff, h2.trans hiff, fun hbad => ⟨?_, ?_⟩⟩
  · rw [h1.2 (hiff.2 hbad), (h3.trans hiff).2 hbad]
  · rw [h2.2 (hiff.2 hbad), (h4.trans hiff).2 hbad]

/-- Witness for C3 at radix 10 with the invalid string `[10]`. -/
theorem claim_C3_witness :
    (2 ≤ 10) ∧
    (((FF1.new (fun blk => blk) (u16RadixOps 10)).encrypt [] [10] = .badInput ↔
        ∃ s ∈ [10], 10 ≤ s) ∧
      ((FF1.new (fun blk => blk) (u16RadixOps 10)).decrypt [] [10] = .badInput ↔
        ∃ s ∈ [10], 10 ≤ s) ∧
      ((∃ s ∈ [10], 10 ≤ s) →
        (FF1.new (fun blk => blk) (u16RadixOps 10)).encrypt [] [10] =
          (FF1.new (fun blk => 0) (u16RadixOps 10)).encrypt [] [10] ∧
        (FF1.new (fun blk => blk) (u16RadixOps 10)).decrypt [] [10] =
          (FF1.new (fun blk => 0) (u16RadixOps 10)).decrypt [] [10])) :=
  ⟨by norm_num,
    claim_C3_bad_input (fun blk => blk) (fun blk => 0) 10 [] [10] (by norm_num)⟩

/-- Claim C4: on a valid input on which encryption succeeds, the output has
the same length as the input and all its symbols are below the radix. -/
theorem claim_C4_preservation (ciph : Nat → Nat) (R : Nat) (tweak x y : List Nat)
    (hR : 2 ≤ R) (hx : ∀ s ∈ x, s < R)
    (henc : (FF1.new ciph (u16RadixOps R)).encrypt tweak x = .ok y) :
    y.length = x.length ∧ ∀ s ∈ y, s < R := by
  cases hn : x.length with
  | zero =>
    have hxe : x = [] := List.length_eq_zero.mp hn
    rw [hxe, encrypt_nil_panicked] at henc
    exact absurd henc (by simp)
  | succ n =>
    obtain ⟨A', B', _, henc2, hAl, hBl, hAv, hBv⟩ :=
      encrypt_u16_ok ciph R tweak x hR hx (by omega)
    rw [henc2] at henc
    have hy : A' ++ B' = y := FF1Result.ok.inj henc
    subst hy
    constructor
    · rw [List.length_append, hAl, hBl]
      omega
    · intro s hs
      rcases List.mem_append.mp hs with h | h
      · exact hAv s h
      · exact hBv s h

/-- Witness for C4: cipher `0`, radix 10, `x = [0, 1]` encrypts to itself. -/
theorem claim_C4_witness :
    (2 ≤ 10 ∧ (∀ s ∈ [0, 1], s < 10) ∧
      (FF1.new (fun blk => 0) (u16RadixOps 10)).encrypt [] [0, 1] = .ok [0, 1]) ∧
    ([0, 1].length = [0, 1].length ∧ ∀ s ∈ [0, 1], s < 10) :=
  ⟨⟨by norm_num, by decide, by decide⟩,
    claim_C4_preservation (fun blk => 0) 10 [] [0, 1] [0, 1]
      (by norm_num) (by decide) (by decide)⟩

/-- Claim C10: on the empty numeral string, for any radix and tweak, both
operations panic (the padding count `b - len(NUM bytes)` underflows since
`b = 0` while the empty string's value serializes to the single byte `0`)
instead of returning `Ok` or `Err`. -/
theorem claim_C10_empty_panics (ciph : Nat → Nat) (R : Nat) (tweak : List Nat) :
    (u16RadixOps R).calculate_b 0 = 0 ∧
    bytesBE (num_radix [] R) = [0] ∧
    (FF1.new ciph (u16RadixOps R)).encrypt tweak [] = .panicked ∧
    (FF1.new ciph (u16RadixOps R)).decrypt tweak [] = .panicked :=
  ⟨calculate_b_u16_zero R,
    by rw [show num_radix [] R = 0 from rfl]; decide,
    encrypt_nil_panicked ciph R tweak, decrypt_nil_panicked ciph R tweak⟩

/-- Claim C5: for every radix `R ≥ 2`, `num_radix(str_radix(x, R, m), R) =
x mod R^m`, and for every numeral string `X` of length `m` (symbols in
`[0, R)`), `str_radix(num_radix(X, R), R, m) = X`. -/
theorem claim_C5_num_str_round_trip (R x m : Nat) (X : List Nat)
    (hR : 2 ≤ R) (hX : ∀ s ∈ X, s < R) (hlen : X.length = m) :
    num_radix (str_radix x R m) R = x % R ^ m ∧
    str_radix (num_radix X R) R m = X := by
  constructor
  · exact num_str (by omega) m x
  · rw [← hlen]
    exact str_num (by omega) X hX

/-- Witness for C5 at `R = 3`, `x = 5`, `m = 2`, `X = [1, 2]`. -/
theorem claim_C5_witness :
    (2 ≤ 3 ∧ (∀ s ∈ [1, 2], s < 3) ∧ [1, 2].length = 2) ∧
    (num_radix (str_radix 5 3 2) 3 = 5 % 3 ^ 2 ∧
      str_radix (num_radix [1, 2] 3) 3 2 = [1, 2]) :=
  ⟨⟨by norm_num, by decide, by decide⟩,
    claim_C5_num_str_round_trip 3 5 2 [1, 2] (by norm_num) (by decide) (by decide)⟩

/-- Claim C8: for the power-of-two radix `2^k` with `1 ≤ k ≤ 15`,
`calculate_b v` equals `⌈v·k / 8⌉`, computed entirely in integer
arithmetic (`(v * k + 7) / 8`). -/
theorem claim_C8_power_two_b (k v : Nat) (hk1 : 1 ≤ k) (hk2 : k ≤ 15) :
    ((PowerTwoRadix.mk (2 ^ k) k).radixOps.calculate_b v : ℤ) = ⌈(v * k : ℚ) / 8⌉ := by
  show (((v * k + 7) / 8 : Nat) : ℤ) = ⌈(v * k : ℚ) / 8⌉
  refine (Int.ceil_eq_iff.2 ⟨?_, ?_⟩).symm
  · rw [lt_div_iff₀ (by norm_num : (0 : ℚ) < 8)]
    have hZ : ((((v * k + 7) / 8 : Nat) : ℤ) - 1) * 8 < ((v * k : Nat) : ℤ) := by
      have h2 : 8 * ((v * k + 7) / 8) ≤ v * k + 7 := by omega
      omega
    exact_mod_cast hZ
  · rw [div_le_iff₀ (by norm_num : (0 : ℚ) < 8)]
    have hZ : ((v * k : Nat) : ℤ) ≤ (((v * k + 7) / 8 : Nat) : ℤ) * 8 := by
      have h1 : v * k ≤ 8 * ((v * k + 7) / 8) := by omega
      omega
    exact_mod_cast hZ

/-- Witness for C8 at `k = 3`, `v = 5`. -/
theorem claim_C8_witness :
    (1 ≤ 3 ∧ 3 ≤ 15) ∧
    ((PowerTwoRadix.mk (2 ^ 3) 3).radixOps.calculate_b 5 : ℤ) = ⌈(5 * 3 : ℚ) / 8⌉ :=
  ⟨⟨by norm_num, by norm_num⟩, claim_C8_power_two_b 3 5 (by norm_num) (by norm_num)⟩

/-- The two radix implementations agree at radix `2^k`: `check_in_range`
(`n % 2^k == n` vs `n >> k == 0`) and `calculate_b` (the exact value of the
floating-point formula vs the integer formula) coincide, as do the integer
forms. -/
theorem radixOps_pow_two_eq (k : Nat) :
    u16RadixOps (2 ^ k) = (PowerTwoRadix.mk (2 ^ k) k).radixOps := by
  unfold u16RadixOps PowerTwoRadix.radixOps
  congr 1
  · funext n
    show ((n % 2 ^ k == n) : Bool) = (n >>> k == 0)
    rw [Bool.eq_iff_iff, beq_iff_eq, beq_iff_eq]
    have hpos : 0 < 2 ^ k := Nat.pos_pow_of_pos k (by omega)
    rw [Nat.shiftRight_eq_div_pow]
    constructor
    · intro h
      have hm := Nat.mod_lt n hpos
      exact Nat.div_eq_of_lt (by omega)
    · intro h
      have hlt : n < 2 ^ k := by
        by_contra hge
        push_neg at hge
        have := (Nat.one_le_div_iff hpos).2 hge
        omega
      exact Nat.mod_eq_of_lt hlt
  · funext v
    show (clog2 ((2 ^ k) ^ v) + 7) / 8 = (v * k + 7) / 8
    rw [← pow_mul, clog2_two_pow, Nat.mul_comm]

/-- Claim C6: for every `k ∈ [1, 15]`, key (cipher), tweak and input, FF1
with the general `u16` radix `2^k` and FF1 with the power-of-two radix `2^k`
produce identical ciphertexts and identical decryptions. -/
theorem claim_C6_power_two_equiv (k : Nat) (ciph : Nat → Nat) (tweak x : List Nat)
    (hk1 : 1 ≤ k) (hk2 : k ≤ 15) :
    (FF1.new ciph (u16RadixOps (2 ^ k))).encrypt tweak x =
      (FF1.new ciph (PowerTwoRadix.mk (2 ^ k) k).radixOps).encrypt tweak x ∧
    (FF1.new ciph (u16RadixOps (2 ^ k))).decrypt tweak x =
      (FF1.new ciph (PowerTwoRadix.mk (2 ^ k) k).radixOps).decrypt tweak x := by
  rw [radixOps_pow_two_eq k]
  exact ⟨rfl, rfl⟩

/-- Witness for C6 at `k = 1`, cipher `id`, input `[0, 1]`. -/
theorem claim_C6_witness :
    (1 ≤ 1 ∧ 1 ≤ 15) ∧
    ((FF1.new (fun blk => blk) (u16RadixOps (2 ^ 1))).encrypt [] [0, 1] =
        (FF1.new (fun blk => blk) (PowerTwoRadix.mk (2 ^ 1) 1).radixOps).encrypt [] [0, 1] ∧
      (FF1.new (fun blk => blk) (u16RadixOps (2 ^ 1))).decrypt [] [0, 1] =
        (FF1.new (fun blk => blk) (PowerTwoRadix.mk (2 ^ 1) 1).radixOps).decrypt [] [0, 1]) :=
  ⟨⟨by norm_num, by norm_num⟩,
    claim_C6_power_two_equiv 1 (fun blk => blk) [] [0, 1] (by norm_num) (by norm_num)⟩

/-- Claim C7: for a non-empty valid input (`n ≥ 1`, operand value below
`R^v`), the prefix `P` is exactly 16 bytes; each round block `Q_i` has
length `t + ((−t − b − 1) mod 16) + 1 + b`, a positive multiple of 16; and
the PRF input `P ‖ Q_i` has length exactly `16·(1 + ⌈(t + b + 1)/16⌉)`. -/
theorem claim_C7_prf_input_length (R n i x b : Nat) (tweak : List Nat)
    (hR : 2 ≤ R) (hn : 1 ≤ n)
    (hb : b = (u16RadixOps R).calculate_b (n - n / 2))
    (hx : x < R ^ (n - n / 2)) :
    (buildP R (n / 2) n tweak.length).length = 16 ∧
    ∃ q, buildQ tweak b i x = some q ∧
      q.length = tweak.length + qPad tweak.length b + 1 + b ∧
      q.length % 16 = 0 ∧ 0 < q.length ∧
      (buildP R (n / 2) n tweak.length ++ q).length =
        16 * (1 + (tweak.length + b + 1 + 15) / 16) := by
  obtain ⟨hb1, hRv⟩ := u16_b_facts hR (show 1 ≤ n - n / 2 by omega)
  rw [← hb] at hb1 hRv
  have hx' : x < 256 ^ b := lt_of_lt_of_le hx hRv
  obtain ⟨q, hq, hqlen⟩ := buildQ_eq_some tweak i hb1 hx'
  have hpad := qPad_spec tweak.length b
  have htot := qPad_total tweak.length b
  refine ⟨buildP_length _ _ _ _, q, hq, hqlen, by omega, by omega, ?_⟩
  rw [List.length_append, buildP_length]
  omega

/-- Witness for C7 at `R = 10`, `n = 2`, `i = 0`, `x = 3`, empty tweak
(`b = 1`). -/
theorem claim_C7_witness :
    (2 ≤ 10 ∧ 1 ≤ 2 ∧ 1 = (u16RadixOps 10).calculate_b (2 - 2 / 2) ∧
      3 < 10 ^ (2 - 2 / 2)) ∧
    ((buildP 10 (2 / 2) 2 ([] : List Nat).length).length = 16 ∧
      ∃ q, buildQ [] 1 0 3 = some q ∧
        q.length = ([] : List Nat).length + qPad ([] : List Nat).length 1 + 1 + 1 ∧
        q.length % 16 = 0 ∧ 0 < q.length ∧
        (buildP 10 (2 / 2) 2 ([] : List Nat).length ++ q).length =
          16 * (1 + (([] : List Nat).length + 1 + 1 + 15) / 16)) :=
  ⟨⟨by norm_num, by norm_num, by decide, by norm_num⟩,
    claim_C7_prf_input_length 10 2 0 3 1 [] (by norm_num) (by norm_num)
      (by decide) (by norm_num)⟩

/-! ### Helper lemmas: the `PowerTwoRadix::from` bit scan -/

theorem ptLoop_found : ∀ (c tmp i log : Nat),
    ptLoop tmp i c log true = if tmp % 2 ^ c = 0 then some (log, true) else none := by
  intro c
  induction c with
  | zero =>
    intro tmp i log
    simp [ptLoop, Nat.mod_one]
  | succ c ih =>
    intro tmp i log
    have hid : tmp % 2 ^ (c + 1) = tmp % 2 + 2 * (tmp / 2 % 2 ^ c) := by
      rw [pow_succ']
      exact Nat.mod_mul
    by_cases h2 : tmp % 2 = 1
    · have hne : tmp % 2 ^ (c + 1) ≠ 0 := by omega
      rw [if_neg hne]
      show (if tmp % 2 = 1 then (if true = true then none else ptLoop (tmp / 2) (i + 1) c i true)
        else ptLoop (tmp / 2) (i + 1) c log true) = none
      rw [if_pos h2, if_pos rfl]
    · show (if tmp % 2 = 1 then (if true = true then none else ptLoop (tmp / 2) (i + 1) c i true)
        else ptLoop (tmp / 2) (i + 1) c log true) = _
      rw [if_neg h2, ih]
      have h0 : tmp % 2 = 0 := by omega
      by_cases h3 : tmp / 2 % 2 ^ c = 0
      · rw [if_pos h3, if_pos (by omega)]
      · rw [if_neg h3, if_neg (by omega)]

theorem ptLoop_zero : ∀ (c tmp i log : Nat), tmp % 2 ^ c = 0 →
    ptLoop tmp i c log false = some (log, false) := by
  intro c
  induction c with
  | zero => intro tmp i log _; rfl
  | succ c ih =>
    intro tmp i log h
    have hid : tmp % 2 ^ (c + 1) = tmp % 2 + 2 * (tmp / 2 % 2 ^ c) := by
      rw [pow_succ']
      exact Nat.mod_mul
    simp only [ptLoop, if_neg (show ¬ tmp % 2 = 1 by omega)]
    exact ih (tmp / 2) (i + 1) log (by omega)

theorem ptLoop_single : ∀ (c j tmp i log : Nat), tmp % 2 ^ c = 2 ^ j →
    ptLoop tmp i c log false = some (i + j, true) := by
  intro c
  induction c with
  | zero =>
    intro j tmp i log h
    rw [pow_zero, Nat.mod_one] at h
    have := Nat.pos_pow_of_pos j (show 0 < 2 by omega)
    omega
  | succ c ih =>
    intro j tmp i log h
    have hid : tmp % 2 ^ (c + 1) = tmp % 2 + 2 * (tmp / 2 % 2 ^ c) := by
      rw [pow_succ']
      exact Nat.mod_mul
    by_cases h2 : tmp % 2 = 1
    · have hj : j = 0 := by
        by_contra hj0
        obtain ⟨j', rfl⟩ : ∃ j', j = j' + 1 := ⟨j - 1, by omega⟩
        have hpow : 2 ^ (j' + 1) = 2 * 2 ^ j' := by rw [pow_succ']
        omega
      subst hj
      rw [pow_zero] at h
      have hz : tmp / 2 % 2 ^ c = 0 := by omega
      simp only [ptLoop, if_pos h2]
      rw [if_neg (show ¬ false = true by simp)]
      rw [ptLoop_found, if_pos hz, Nat.add_zero]
    · have h0 : tmp % 2 = 0 := by omega
      obtain ⟨j', rfl⟩ : ∃ j', j = j' + 1 := by
        cases j with
        | zero =>
          exfalso
          rw [pow_zero] at h
          omega
        | succ j' => exact ⟨j', rfl⟩
      have hpow : 2 ^ (j' + 1) = 2 * 2 ^ j' := by rw [pow_succ']
      have hz : tmp / 2 % 2 ^ c = 2 ^ j' := by omega
      simp only [ptLoop, if_neg h2]
      rw [ih j' (tmp / 2) (i + 1) log hz]
      rw [show i + 1 + j' = i + (j' + 1) from by omega]

theorem ptLoop_multi : ∀ (c tmp i log : Nat), tmp % 2 ^ c ≠ 0 →
    (∀ j, tmp % 2 ^ c ≠ 2 ^ j) → ptLoop tmp i c log false = none := by
  intro c
  induction c with
  | zero =>
    intro tmp i log h _
    rw [pow_zero, Nat.mod_one] at h
    omega
  | succ c ih =>
    intro tmp i log h hj
    have hid : tmp % 2 ^ (c + 1) = tmp % 2 + 2 * (tmp / 2 % 2 ^ c) := by
      rw [pow_succ']
      exact Nat.mod_mul
    by_cases h2 : tmp % 2 = 1
    · simp only [ptLoop, if_pos h2]
      rw [if_neg (show ¬ false = true by simp)]
      rw [ptLoop_found]
      have hz : tmp / 2 % 2 ^ c ≠ 0 := by
        intro h0
        exact hj 0 (by rw [pow_zero]; omega)
      rw [if_neg hz]
    · have h0 : tmp % 2 = 0 := by omega
      simp only [ptLoop, if_neg h2]
      apply ih
      · intro hz
        exact h (by omega)
      · intro j hjz
        apply hj (j + 1)
        have hpow : 2 ^ (j + 1) = 2 * 2 ^ j := by rw [pow_succ']
        omega

/-- A natural number that is neither zero nor a power of two has two
distinct set bits. -/
theorem two_testBits_of_not_pow (r : Nat) (hr0 : r ≠ 0)
    (hpow : ∀ k, r ≠ 2 ^ k) :
    ∃ i j, i < j ∧ r.testBit i = true ∧ r.testBit j = true := by
  set j := Nat.log 2 r with hj
  have hle : 2 ^ j ≤ r := Nat.pow_log_le_self 2 hr0
  have hlt : r < 2 ^ (j + 1) := Nat.lt_pow_succ_log_self (by omega) r
  set m := r - 2 ^ j with hm
  have hmpos : 0 < m := by
    have := hpow j
    omega
  have hmlt : m < 2 ^ j := by
    have hpow2 : 2 ^ (j + 1) = 2 * 2 ^ j := by rw [pow_succ']
    omega
  set i := Nat.log 2 m with hi
  have hile : 2 ^ i ≤ m := Nat.pow_log_le_self 2 (by omega)
  have hilt : m < 2 ^ (i + 1) := Nat.lt_pow_succ_log_self (by omega) m
  have hij : i < j := by
    have : 2 ^ i < 2 ^ j := lt_of_le_of_lt hile hmlt
    exact (Nat.pow_lt_pow_iff_right (by omega)).1 this
  have hsum : r = 2 ^ j + m := by omega
  refine ⟨i, j, hij, ?_, ?_⟩
  · rw [hsum, Nat.testBit_two_pow_add_gt hij]
    rw [Nat.testBit_to_div_mod]
    have hdiv : m / 2 ^ i = 1 := by
      have h1 : 1 * 2 ^ i ≤ m := by omega
      have h2 : m < 2 * 2 ^ i := by
        have : 2 ^ (i + 1) = 2 * 2 ^ i := by rw [pow_succ']
        omega
      have h3 : m / 2 ^ i < 2 := by
        rw [Nat.div_lt_iff_lt_mul (show 0 < 2 ^ i by positivity)]
        omega
      have h4 : 1 ≤ m / 2 ^ i := by
        rw [Nat.one_le_div_iff (show 0 < 2 ^ i by positivity)]
        omega
      omega
    rw [hdiv]
    decide
  · rw [hsum, Nat.testBit_two_pow_add_eq]
    have hfalse : m.testBit j = false := Nat.testBit_eq_false_of_lt hmlt
    rw [hfalse]
    rfl

/-- Claim C9: `PowerTwoRadix::from(r)` (for `u16` inputs) succeeds exactly
when `r = 2^k` for some `k ∈ [1, 15]`, storing `log_radix = k`, and errors
exactly when `r` is 0, 1, or has more than one bit set. -/
theorem claim_C9_fromRadix (r : Nat) (hr : r < 65536) :
    (∀ k, 1 ≤ k → k ≤ 15 → r = 2 ^ k →
      PowerTwoRadix.fromRadix r = some ⟨r, k⟩) ∧
    (PowerTwoRadix.fromRadix r = none ↔
      (r = 0 ∨ r = 1 ∨ ∃ i j, i < j ∧ r.testBit i = true ∧ r.testBit j = true)) ∧
    (∀ pt, PowerTwoRadix.fromRadix r = some pt →
      ∃ k, 1 ≤ k ∧ k ≤ 15 ∧ r = 2 ^ k ∧ pt = ⟨r, k⟩) := by
  have hmod : r % 2 ^ 16 = r := Nat.mod_eq_of_lt (by norm_num; omega)
  by_cases hpow : ∃ k, r = 2 ^ k
  · obtain ⟨k, rfl⟩ := hpow
    have hk16 : k < 16 := by
      by_contra hge
      push_neg at hge
      have : 2 ^ 16 ≤ 2 ^ k := Nat.pow_le_pow_right (by omega) hge
      norm_num at this
      omega
    by_cases hk0 : k = 0
    · subst hk0
      refine ⟨?_, ⟨fun _ => by norm_num, fun _ => by decide⟩, ?_⟩
      · intro k' hk1 _ habs
        rw [pow_zero] at habs
        have : 1 < 2 ^ k' := Nat.one_lt_two_pow_iff.2 (by omega)
        omega
      · intro pt hpt
        rw [show PowerTwoRadix.fromRadix (2 ^ 0) = none from by decide] at hpt
        exact absurd hpt (by simp)
    · have hsome : PowerTwoRadix.fromRadix (2 ^ k) = some ⟨2 ^ k, k⟩ := by
        unfold PowerTwoRadix.fromRadix
        rw [ptLoop_single 16 k (2 ^ k) 0 0 hmod, Nat.zero_add]
        obtain ⟨k', rfl⟩ : ∃ k', k = k' + 1 := ⟨k - 1, by omega⟩
        rfl
      refine ⟨?_, ⟨?_, ?_⟩, ?_⟩
      · intro k' _ _ heq
        have hkk : k = k' := Nat.pow_right_injective (by omega) heq
        rw [← hkk]
        exact hsome
      · intro hnone
        rw [hsome] at hnone
        exact absurd hnone (by simp)
      · intro hcase
        exfalso
        rcases hcase with h0 | h1 | ⟨i, j, hij, hbi, hbj⟩
        · have : 0 < 2 ^ k := Nat.pos_pow_of_pos k (by omega)
          omega
        · have : 1 < 2 ^ k := Nat.one_lt_two_pow_iff.2 (by omega)
          omega
        · rw [Nat.testBit_two_pow] at hbi hbj
          have hi := of_decide_eq_true hbi
          have hj := of_decide_eq_true hbj
          omega
      · intro pt hpt
        rw [hsome] at hpt
        exact ⟨k, by omega, by omega, rfl, (Option.some.inj hpt).symm⟩
  · push_neg at hpow
    by_cases hr0 : r = 0
    · subst hr0
      refine ⟨?_, ⟨fun _ => Or.inl rfl, fun _ => by decide⟩, ?_⟩
      · intro k _ _ habs
        have : 0 < 2 ^ k := Nat.pos_pow_of_pos k (by omega)
        omega
      · intro pt hpt
        rw [show PowerTwoRadix.fromRadix 0 = none from by decide] at hpt
        exact absurd hpt (by simp)
    · have hnone : PowerTwoRadix.fromRadix r = none := by
        unfold PowerTwoRadix.fromRadix
        rw [ptLoop_multi 16 r 0 0 (by omega) (fun j => by rw [hmod]; exact hpow j)]
      have hmulti := two_testBits_of_not_pow r hr0 hpow
      refine ⟨?_, ⟨fun _ => Or.inr (Or.inr hmulti), fun _ => hnone⟩, ?_⟩
      · intro k _ _ heq
        exact absurd heq (hpow k)
      · intro pt hpt
        rw [hnone] at hpt
        exact absurd hpt (by simp)

/-- Witness for C9 at `r = 4`. -/
theorem claim_C9_witness :
    ((4 : Nat) < 65536) ∧
    ((∀ k, 1 ≤ k → k ≤ 15 → 4 = 2 ^ k →
        PowerTwoRadix.fromRadix 4 = some ⟨4, k⟩) ∧
      (PowerTwoRadix.fromRadix 4 = none ↔
        (4 = 0 ∨ 4 = 1 ∨ ∃ i j, i < j ∧ Nat.testBit 4 i = true ∧ Nat.testBit 4 j = true)) ∧
      (∀ pt, PowerTwoRadix.fromRadix 4 = some pt →
        ∃ k, 1 ≤ k ∧ k ≤ 15 ∧ 4 = 2 ^ k ∧ pt = ⟨4, k⟩)) :=
  ⟨by norm_num, claim_C9_fromRadix 4 (by norm_num)⟩

end FPE
